import Mathlib

/- Verification of the expression-tree micro-library of this repository:
   src/asset/2b-expr-unique.cpp and src/asset/2b-expr-shared.cpp, documented
   in src/block-2b.md.  The C++ type double is modelled by the rational
   numbers (every finite double is a rational number, and the programs use
   only small integral constants, on which double arithmetic is exact), and
   std::ostream is modelled by a String accumulator: writing to the stream
   appends characters at its end. -/

/-- Arithmetic expression trees in one free variable, as built from the four
concrete classes Constant, Variable, Sum, Product that appear identically in
both variants.  A value of this type is a well-formed tree: both children of
a binary node are always present (non-null pointers). -/
inductive Expr : Type where
  | Constant (c : ℚ)
  | Variable
  | Sum (left right : Expr)
  | Product (left right : Expr)
deriving DecidableEq

/-- Model of the default iostream rendering of a double, as in the statement
os << c of Constant::print: a double holding an integral value is printed as
that integer with no decimal point (this covers every constant either program
ever prints; non-integral values get a fallback rendering). -/
def printDouble (c : ℚ) : String :=
  if c.den = 1 then toString c.num else toString c.num ++ "/" ++ toString c.den

namespace Unique

/-- The pure virtual interface of the class Expression of
src/asset/2b-expr-unique.cpp (lines 4 to 9): it declares evaluate and print
(and a defaulted virtual destructor); this variant has no derivative method. -/
def expressionMethods : List String := ["evaluate", "print"]

/-- Sum::calc of 2b-expr-unique.cpp: return a+b.  (The source member is
named calc; that word is reserved in Lean, hence the suffix.) -/
def Sum.calcFn (a b : ℚ) : ℚ := a + b

/-- Sum::op of 2b-expr-unique.cpp: return the character plus. -/
def Sum.op : Char := '+'

/-- Product::calc of 2b-expr-unique.cpp, lines 76 to 78: the source body is
literally return a+b (not a*b). -/
def Product.calcFn (a b : ℚ) : ℚ := a + b

/-- Product::op of 2b-expr-unique.cpp: return the character star. -/
def Product.op : Char := '*'

/-- Virtual dispatch of evaluate over the four classes of
2b-expr-unique.cpp: Constant::evaluate returns c, Variable::evaluate returns
x, and the final TwoOp::evaluate returns calc(left->evaluate(x),
right->evaluate(x)) with calc dispatched to Sum or Product. -/
def evaluate : Expr → ℚ → ℚ
  | .Constant c, _ => c
  | .Variable, x => x
  | .Sum l r, x => Sum.calcFn (evaluate l x) (evaluate r x)
  | .Product l r, x => Product.calcFn (evaluate l x) (evaluate r x)

/-- Virtual dispatch of print over the four classes of 2b-expr-unique.cpp:
Constant::print writes the constant, Variable::print writes the character x,
and the final TwoOp::print writes an opening parenthesis, the left child,
the op() character, the right child, a closing parenthesis, in this order. -/
def printTo : Expr → String → String
  | .Constant c, os => os ++ printDouble c
  | .Variable, os => os.push 'x'
  | .Sum l r, os => (printTo r ((printTo l (os.push '(')).push Sum.op)).push ')'
  | .Product l r, os => (printTo r ((printTo l (os.push '(')).push Product.op)).push ')'

/-- The text an expression prints into an initially empty stream. -/
def printStr (e : Expr) : String := printTo e ""

/-- The free function operator<<(os, e) of 2b-expr-unique.cpp (lines 11 to
14): it runs e.print(os) and returns (a reference to) the stream, here the
stream state after printing. -/
def insertExpr (os : String) (e : Expr) : String := printTo e os

end Unique

namespace Shared

/-- The pure virtual interface of the class Expression of
src/asset/2b-expr-shared.cpp (lines 4 to 10): evaluate, print and derivative
(and a defaulted virtual destructor). -/
def expressionMethods : List String := ["evaluate", "print", "derivative"]

/-- Sum::calc of 2b-expr-shared.cpp: return a+b. -/
def Sum.calcFn (a b : ℚ) : ℚ := a + b

/-- Sum::op of 2b-expr-shared.cpp: return the character plus. -/
def Sum.op : Char := '+'

/-- Product::calc of 2b-expr-shared.cpp, lines 81 to 83: the source body is
literally return a+b (not a*b). -/
def Product.calcFn (a b : ℚ) : ℚ := a + b

/-- Product::op of 2b-expr-shared.cpp: return the character star. -/
def Product.op : Char := '*'

/-- Virtual dispatch of evaluate over the four classes of
2b-expr-shared.cpp; textually the same code as in the unique variant. -/
def evaluate : Expr → ℚ → ℚ
  | .Constant c, _ => c
  | .Variable, x => x
  | .Sum l r, x => Sum.calcFn (evaluate l x) (evaluate r x)
  | .Product l r, x => Product.calcFn (evaluate l x) (evaluate r x)

/-- Virtual dispatch of print over the four classes of 2b-expr-shared.cpp;
textually the same code as in the unique variant. -/
def printTo : Expr → String → String
  | .Constant c, os => os ++ printDouble c
  | .Variable, os => os.push 'x'
  | .Sum l r, os => (printTo r ((printTo l (os.push '(')).push Sum.op)).push ')'
  | .Product l r, os => (printTo r ((printTo l (os.push '(')).push Product.op)).push ')'

/-- The text an expression prints into an initially empty stream. -/
def printStr (e : Expr) : String := printTo e ""

/-- Virtual dispatch of derivative over the four classes of
2b-expr-shared.cpp: Constant::derivative returns Constant(0),
Variable::derivative returns Constant(1), Sum::derivative returns
Sum(left->derivative(), right->derivative()), and Product::derivative
(lines 90 to 95) returns Sum(Product(left, right->derivative()),
Product(left->derivative(), right)), sharing the original children. -/
def derivative : Expr → Expr
  | .Constant _ => .Constant 0
  | .Variable => .Constant 1
  | .Sum l r => .Sum (derivative l) (derivative r)
  | .Product l r => .Sum (.Product l (derivative r)) (.Product (derivative l) r)

end Shared

/-- The expression 4*(5+x) built in the main function of both programs:
Product(Constant(4), Sum(Constant(5), Variable())). -/
def exampleTree : Expr :=
  .Product (.Constant 4) (.Sum (.Constant 5) .Variable)

/-- The canonical fully parenthesized rendering that the spec describes in
section 4.1: Constant renders as its value, Variable as the character x, and
every binary node as the parenthesized concatenation of left child, operator
and right child.  This definition follows the words of the spec; the print
methods of both variants are proved below to produce exactly this text. -/
def specRender : Expr → String
  | .Constant c => printDouble c
  | .Variable => "x"
  | .Sum l r => "(" ++ specRender l ++ "+" ++ specRender r ++ ")"
  | .Product l r => "(" ++ specRender l ++ "*" ++ specRender r ++ ")"

/-- The raw pointer level of both programs: a value of this type is what a
std::unique_ptr<Expression> or std::shared_ptr<Expression> variable holds,
and such a pointer may be null.  The well-formed trees embed into this type
through Expr.toRaw below. -/
inductive RawExpr : Type where
  | null
  | Constant (c : ℚ)
  | Variable
  | Sum (left right : RawExpr)
  | Product (left right : RawExpr)
deriving DecidableEq

/-- Construction of a Sum node, as in make_shared<Sum>(l, r) or
make_unique<Sum>(l, r): the inherited TwoOp constructor (2b-expr-shared.cpp
lines 49 to 50, 2b-expr-unique.cpp lines 46 to 47) only initializes left and
right from the given pointers, with no null check, so construction always
succeeds and returns the node. -/
def buildSum (left right : RawExpr) : RawExpr := RawExpr.Sum left right

/-- Construction of a Product node through the same unchecked TwoOp
constructor; construction always succeeds and returns the node. -/
def buildProduct (left right : RawExpr) : RawExpr := RawExpr.Product left right

/-- evaluate at the raw pointer level: TwoOp::evaluate calls
left->evaluate(x) and right->evaluate(x); calling through a null pointer is
a crash (undefined behavior), modelled as none. -/
def RawExpr.evaluate : RawExpr → ℚ → Option ℚ
  | .null, _ => none
  | .Constant c, _ => some c
  | .Variable, x => some x
  | .Sum l r, x => do
      pure (Shared.Sum.calcFn (← l.evaluate x) (← r.evaluate x))
  | .Product l r, x => do
      pure (Shared.Product.calcFn (← l.evaluate x) (← r.evaluate x))

/-- print at the raw pointer level: TwoOp::print calls left->print(os) and
right->print(os) around the operator character; a null dereference is
modelled as none. -/
def RawExpr.printTo : RawExpr → String → Option String
  | .null, _ => none
  | .Constant c, os => some (os ++ printDouble c)
  | .Variable, os => some (os.push 'x')
  | .Sum l r, os => do
      let os1 ← l.printTo (os.push '(')
      let os2 ← r.printTo (os1.push Shared.Sum.op)
      pure (os2.push ')')
  | .Product l r, os => do
      let os1 ← l.printTo (os.push '(')
      let os2 ← r.printTo (os1.push Shared.Product.op)
      pure (os2.push ')')

/-- derivative at the raw pointer level (shared variant): the Sum and
Product rules call left->derivative() and right->derivative(); a null
dereference is modelled as none.  Note that Product::derivative stores the
original left and right pointers unchanged in the new Product nodes. -/
def RawExpr.derivative : RawExpr → Option RawExpr
  | .null => none
  | .Constant _ => some (.Constant 0)
  | .Variable => some (.Constant 1)
  | .Sum l r => do
      pure (.Sum (← l.derivative) (← r.derivative))
  | .Product l r => do
      pure (.Sum (.Product l (← r.derivative)) (.Product (← l.derivative) r))

/-- A well-formed tree seen at the raw pointer level: every child pointer is
present, none is null. -/
def Expr.toRaw : Expr → RawExpr
  | .Constant c => .Constant c
  | .Variable => .Variable
  | .Sum l r => .Sum l.toRaw r.toRaw
  | .Product l r => .Product l.toRaw r.toRaw

/-- One heap cell of the shared-ownership program: the Expression object a
shared_ptr points to.  A TwoOp object holds the two shared pointers to its
children, modelled as indices of cells allocated earlier. -/
inductive Node : Type where
  | Constant (c : ℚ)
  | Variable
  | Sum (left right : Nat)
  | Product (left right : Nat)
deriving DecidableEq

/-- The heap of Expression objects created by make_shared, in allocation
order.  A shared_ptr is an index into this list; copying a shared_ptr (as
Product::derivative does with left and right) copies the index, so two
parents may point to the same cell.  Objects are immutable and, in this
program, never unreachable while the theorems below look at them, so the
heap only ever grows at the end. -/
abbrev Store := List Node

/-- make_shared: place a new object after the existing ones and hand back
the pointer to it together with the grown heap. -/
def alloc (s : Store) (n : Node) : Nat × Store := (s.length, s ++ [n])

/-- evaluate(x) called through the pointer i, with fuel: virtual dispatch on
the object at index i, a TwoOp recursing into its children.  All trees in
the program are built bottom-up, so the children of a cell always have
smaller indices; the explicit index bound mirrors that acyclicity (which is
what makes the C++ recursion terminate) and makes fuel i+1 always enough. -/
def evalAtF (s : Store) : Nat → Nat → ℚ → Option ℚ
  | 0, _, _ => none
  | fuel+1, i, x =>
    match s[i]? with
    | none => none
    | some (Node.Constant c) => some c
    | some Node.Variable => some x
    | some (Node.Sum l r) =>
      if l < i ∧ r < i then do
        pure (Shared.Sum.calcFn (← evalAtF s fuel l x) (← evalAtF s fuel r x))
      else none
    | some (Node.Product l r) =>
      if l < i ∧ r < i then do
        pure (Shared.Product.calcFn (← evalAtF s fuel l x) (← evalAtF s fuel r x))
      else none

/-- evaluate(x) called through the pointer i. -/
def evalAt (s : Store) (i : Nat) (x : ℚ) : Option ℚ := evalAtF s (i+1) i x

/-- print(os) called through the pointer i, with fuel. -/
def printAtF (s : Store) : Nat → Nat → String → Option String
  | 0, _, _ => none
  | fuel+1, i, os =>
    match s[i]? with
    | none => none
    | some (Node.Constant c) => some (os ++ printDouble c)
    | some Node.Variable => some (os.push 'x')
    | some (Node.Sum l r) =>
      if l < i ∧ r < i then do
        let os1 ← printAtF s fuel l (os.push '(')
        let os2 ← printAtF s fuel r (os1.push Shared.Sum.op)
        pure (os2.push ')')
      else none
    | some (Node.Product l r) =>
      if l < i ∧ r < i then do
        let os1 ← printAtF s fuel l (os.push '(')
        let os2 ← printAtF s fuel r (os1.push Shared.Product.op)
        pure (os2.push ')')
      else none

/-- print(os) called through the pointer i. -/
def printAt (s : Store) (i : Nat) (os : String) : Option String :=
  printAtF s (i+1) i os

/-- The expression tree reachable from the pointer i, unfolded: two pointers
are observably the same expression exactly when they read back equal trees. -/
def readExprF (s : Store) : Nat → Nat → Option Expr
  | 0, _ => none
  | fuel+1, i =>
    match s[i]? with
    | none => none
    | some (Node.Constant c) => some (Expr.Constant c)
    | some Node.Variable => some Expr.Variable
    | some (Node.Sum l r) =>
      if l < i ∧ r < i then do
        pure (Expr.Sum (← readExprF s fuel l) (← readExprF s fuel r))
      else none
    | some (Node.Product l r) =>
      if l < i ∧ r < i then do
        pure (Expr.Product (← readExprF s fuel l) (← readExprF s fuel r))
      else none

/-- The expression tree reachable from the pointer i. -/
def readExpr (s : Store) (i : Nat) : Option Expr := readExprF s (i+1) i

/-- derivative() called through the pointer i, with fuel, threading the heap
through the allocations: Constant::derivative and Variable::derivative
allocate a fresh Constant; Sum::derivative allocates the derivatives of its
children and a Sum of them; Product::derivative (2b-expr-shared.cpp lines 90
to 95) allocates the derivative of the right child, a Product that shares
the original left pointer, the derivative of the left child, a Product that
shares the original right pointer, and a Sum of the two Products.  C++ does
not fix the evaluation order of the two make_shared arguments; the order
chosen here only fixes which fresh index each new object gets, which none of
the theorems depend on.  The original children are never copied: only their
indices are stored in the new objects. -/
def derivAtF : Nat → Store → Nat → Option (Nat × Store)
  | 0, _, _ => none
  | fuel+1, s, i =>
    match s[i]? with
    | none => none
    | some (Node.Constant _) => some (alloc s (Node.Constant 0))
    | some Node.Variable => some (alloc s (Node.Constant 1))
    | some (Node.Sum l r) =>
      if l < i ∧ r < i then do
        let (dl, s1) ← derivAtF fuel s l
        let (dr, s2) ← derivAtF fuel s1 r
        pure (alloc s2 (Node.Sum dl dr))
      else none
    | some (Node.Product l r) =>
      if l < i ∧ r < i then do
        let (dr, s1) ← derivAtF fuel s r
        let (pl, s2) := alloc s1 (Node.Product l dr)
        let (dl, s3) ← derivAtF fuel s2 l
        let (pr, s4) := alloc s3 (Node.Product dl r)
        pure (alloc s4 (Node.Sum pl pr))
      else none

/-- derivative() called through the pointer i. -/
def derivAt (s : Store) (i : Nat) : Option (Nat × Store) := derivAtF (i+1) s i

/-- The heap after the main function of the shared program has built the
tree 4*(5+x): the five cells of Product(Constant(4), Sum(Constant(5),
Variable())), children before parents. -/
def mainStore : Store :=
  [Node.Constant 4, Node.Constant 5, Node.Variable,
   Node.Sum 1 2, Node.Product 0 3]

/-- The heap after additionally calling derivative() on the root of
mainStore: the original five cells, untouched, followed by the seven fresh
cells of the derivative tree; cells 8 and 10 hold the original pointers 0
and 3. -/
def mainDerivStore : Store :=
  mainStore ++ [Node.Constant 0, Node.Constant 1, Node.Sum 5 6,
    Node.Product 0 7, Node.Constant 0, Node.Product 9 3, Node.Sum 8 10]

/-- Pushing one character onto a stream appends the singleton string. -/
theorem push_eq_singleton_append (s : String) (c : Char) :
    s.push c = s ++ String.singleton c := by
  cases s; rfl

theorem singleton_lparen : String.singleton '(' = "(" := rfl

theorem singleton_rparen : String.singleton ')' = ")" := rfl

theorem singleton_plus : String.singleton '+' = "+" := rfl

theorem singleton_star : String.singleton '*' = "*" := rfl

theorem singleton_x : String.singleton 'x' = "x" := rfl

/-- Printing in the unique variant appends the canonical rendering to the
stream, whatever the stream already holds. -/
theorem unique_printTo_eq_append (e : Expr) :
    ∀ os : String, Unique.printTo e os = os ++ specRender e := by
  induction e with
  | Constant c => intro os; simp [Unique.printTo, specRender]
  | Variable =>
    intro os
    simp [Unique.printTo, specRender, push_eq_singleton_append, singleton_x]
  | Sum l r ihl ihr =>
    intro os
    simp [Unique.printTo, specRender, push_eq_singleton_append, Unique.Sum.op,
      singleton_lparen, singleton_rparen, singleton_plus, ihl, ihr,
      String.append_assoc]
  | Product l r ihl ihr =>
    intro os
    simp [Unique.printTo, specRender, push_eq_singleton_append,
      Unique.Product.op, singleton_lparen, singleton_rparen, singleton_star,
      ihl, ihr, String.append_assoc]

/-- Printing in the shared variant appends the canonical rendering to the
stream, whatever the stream already holds. -/
theorem shared_printTo_eq_append (e : Expr) :
    ∀ os : String, Shared.printTo e os = os ++ specRender e := by
  induction e with
  | Constant c => intro os; simp [Shared.printTo, specRender]
  | Variable =>
    intro os
    simp [Shared.printTo, specRender, push_eq_singleton_append, singleton_x]
  | Sum l r ihl ihr =>
    intro os
    simp [Shared.printTo, specRender, push_eq_singleton_append, Shared.Sum.op,
      singleton_lparen, singleton_rparen, singleton_plus, ihl, ihr,
      String.append_assoc]
  | Product l r ihl ihr =>
    intro os
    simp [Shared.printTo, specRender, push_eq_singleton_append,
      Shared.Product.op, singleton_lparen, singleton_rparen, singleton_star,
      ihl, ihr, String.append_assoc]

/-- The text printed into an empty stream is the canonical rendering
(unique variant). -/
theorem unique_printStr_eq (e : Expr) : Unique.printStr e = specRender e := by
  simp [Unique.printStr, unique_printTo_eq_append, String.empty_append]

/-- The text printed into an empty stream is the canonical rendering
(shared variant). -/
theorem shared_printStr_eq (e : Expr) : Shared.printStr e = specRender e := by
  simp [Shared.printStr, shared_printTo_eq_append, String.empty_append]

/-- Both variants evaluate every tree identically (the code of the four
evaluate and calc methods is the same in the two files). -/
theorem evaluate_agrees (e : Expr) (x : ℚ) :
    Unique.evaluate e x = Shared.evaluate e x := by
  induction e with
  | Constant c => rfl
  | Variable => rfl
  | Sum l r ihl ihr =>
    simp [Unique.evaluate, Shared.evaluate, Unique.Sum.calcFn,
      Shared.Sum.calcFn, ihl, ihr]
  | Product l r ihl ihr =>
    simp [Unique.evaluate, Shared.evaluate, Unique.Product.calcFn,
      Shared.Product.calcFn, ihl, ihr]

/-- On a well-formed tree, raw evaluation succeeds and agrees with the
structural evaluator. -/
theorem raw_evaluate_toRaw (e : Expr) (x : ℚ) :
    RawExpr.evaluate e.toRaw x = some (Shared.evaluate e x) := by
  induction e with
  | Constant c => rfl
  | Variable => rfl
  | Sum l r ihl ihr =>
    simp [Expr.toRaw, RawExpr.evaluate, Shared.evaluate, ihl, ihr]
  | Product l r ihl ihr =>
    simp [Expr.toRaw, RawExpr.evaluate, Shared.evaluate, ihl, ihr]

/-- On a well-formed tree, raw printing succeeds and agrees with the
structural printer, for every stream. -/
theorem raw_printTo_toRaw (e : Expr) :
    ∀ os : String, RawExpr.printTo e.toRaw os = some (Shared.printTo e os) := by
  induction e with
  | Constant c => intro os; rfl
  | Variable => intro os; rfl
  | Sum l r ihl ihr =>
    intro os
    simp [Expr.toRaw, RawExpr.printTo, Shared.printTo, ihl, ihr]
  | Product l r ihl ihr =>
    intro os
    simp [Expr.toRaw, RawExpr.printTo, Shared.printTo, ihl, ihr]

/-- On a well-formed tree, raw differentiation succeeds, agrees with the
structural derivative, and produces a well-formed tree. -/
theorem raw_derivative_toRaw (e : Expr) :
    RawExpr.derivative e.toRaw = some (Shared.derivative e).toRaw := by
  induction e with
  | Constant c => rfl
  | Variable => rfl
  | Sum l r ihl ihr =>
    simp [Expr.toRaw, RawExpr.derivative, Shared.derivative, ihl, ihr]
  | Product l r ihl ihr =>
    simp [Expr.toRaw, RawExpr.derivative, Shared.derivative, ihl, ihr]

/-- Any fuel beyond the pointer index gives evaluation the same result. -/
theorem evalAtF_mono (s : Store) :
    ∀ fuel fuel2 i x, i < fuel → i < fuel2 →
      evalAtF s fuel i x = evalAtF s fuel2 i x := by
  intro fuel
  induction fuel with
  | zero => intro fuel2 i x hi; omega
  | succ fuel ih =>
    intro fuel2 i x hi hi2
    match fuel2, hi2 with
    | fuel2+1, hi2 =>
      simp only [evalAtF]
      cases hs : s[i]? with
      | none => rfl
      | some n =>
        cases n with
        | Constant c => rfl
        | Variable => rfl
        | Sum l r =>
          by_cases hlr : l < i ∧ r < i
          · have h1 := ih fuel2 l x (by omega) (by omega)
            have h2 := ih fuel2 r x (by omega) (by omega)
            simp [hlr, h1, h2]
          · simp [hlr]
        | Product l r =>
          by_cases hlr : l < i ∧ r < i
          · have h1 := ih fuel2 l x (by omega) (by omega)
            have h2 := ih fuel2 r x (by omega) (by omega)
            simp [hlr, h1, h2]
          · simp [hlr]

/-- Any fuel beyond the pointer index gives printing the same result. -/
theorem printAtF_mono (s : Store) :
    ∀ fuel fuel2 i os, i < fuel → i < fuel2 →
      printAtF s fuel i os = printAtF s fuel2 i os := by
  intro fuel
  induction fuel with
  | zero => intro fuel2 i os hi; omega
  | succ fuel ih =>
    intro fuel2 i os hi hi2
    match fuel2, hi2 with
    | fuel2+1, hi2 =>
      simp only [printAtF]
      cases hs : s[i]? with
      | none => rfl
      | some n =>
        cases n with
        | Constant c => rfl
        | Variable => rfl
        | Sum l r =>
          by_cases hlr : l < i ∧ r < i
          · have h1 : ∀ t, printAtF s fuel l t = printAtF s fuel2 l t :=
              fun t => ih fuel2 l t (by omega) (by omega)
            have h2 : ∀ t, printAtF s fuel r t = printAtF s fuel2 r t :=
              fun t => ih fuel2 r t (by omega) (by omega)
            simp [hlr, h1, h2]
          · simp [hlr]
        | Product l r =>
          by_cases hlr : l < i ∧ r < i
          · have h1 : ∀ t, printAtF s fuel l t = printAtF s fuel2 l t :=
              fun t => ih fuel2 l t (by omega) (by omega)
            have h2 : ∀ t, printAtF s fuel r t = printAtF s fuel2 r t :=
              fun t => ih fuel2 r t (by omega) (by omega)
            simp [hlr, h1, h2]
          · simp [hlr]

/-- Any fuel beyond the pointer index reads back the same tree. -/
theorem readExprF_mono (s : Store) :
    ∀ fuel fuel2 i, i < fuel → i < fuel2 →
      readExprF s fuel i = readExprF s fuel2 i := by
  intro fuel
  induction fuel with
  | zero => intro fuel2 i hi; omega
  | succ fuel ih =>
    intro fuel2 i hi hi2
    match fuel2, hi2 with
    | fuel2+1, hi2 =>
      simp only [readExprF]
      cases hs : s[i]? with
      | none => rfl
      | some n =>
        cases n with
        | Constant c => rfl
        | Variable => rfl
        | Sum l r =>
          by_cases hlr : l < i ∧ r < i
          · have h1 := ih fuel2 l (by omega) (by omega)
            have h2 := ih fuel2 r (by omega) (by omega)
            simp [hlr, h1, h2]
          · simp [hlr]
        | Product l r =>
          by_cases hlr : l < i ∧ r < i
          · have h1 := ih fuel2 l (by omega) (by omega)
            have h2 := ih fuel2 r (by omega) (by omega)
            simp [hlr, h1, h2]
          · simp [hlr]

/-- Any fuel beyond the pointer index gives differentiation the same result. -/
theorem derivAtF_mono :
    ∀ fuel fuel2 s i, i < fuel → i < fuel2 →
      derivAtF fuel s i = derivAtF fuel2 s i := by
  intro fuel
  induction fuel with
  | zero => intro fuel2 s i hi; omega
  | succ fuel ih =>
    intro fuel2 s i hi hi2
    match fuel2, hi2 with
    | fuel2+1, hi2 =>
      simp only [derivAtF]
      cases hs : s[i]? with
      | none => rfl
      | some n =>
        cases n with
        | Constant c => rfl
        | Variable => rfl
        | Sum l r =>
          by_cases hlr : l < i ∧ r < i
          · have h1 : ∀ t, derivAtF fuel t l = derivAtF fuel2 t l :=
              fun t => ih fuel2 t l (by omega) (by omega)
            have h2 : ∀ t, derivAtF fuel t r = derivAtF fuel2 t r :=
              fun t => ih fuel2 t r (by omega) (by omega)
            simp [hlr, h1, h2]
          · simp [hlr]
        | Product l r =>
          by_cases hlr : l < i ∧ r < i
          · have h1 : ∀ t, derivAtF fuel t l = derivAtF fuel2 t l :=
              fun t => ih fuel2 t l (by omega) (by omega)
            have h2 : ∀ t, derivAtF fuel t r = derivAtF fuel2 t r :=
              fun t => ih fuel2 t r (by omega) (by omega)
            simp [hlr, h1, h2]
          · simp [hlr]

/-- Growing the heap at the end never changes what an existing pointer
evaluates to. -/
theorem evalAtF_append (s t : Store) :
    ∀ fuel i x, i < s.length →
      evalAtF (s ++ t) fuel i x = evalAtF s fuel i x := by
  intro fuel
  induction fuel with
  | zero => intro i x hi; rfl
  | succ fuel ih =>
    intro i x hi
    simp only [evalAtF, List.getElem?_append_left hi]
    cases hs : s[i]? with
    | none => rfl
    | some n =>
      cases n with
      | Constant c => rfl
      | Variable => rfl
      | Sum l r =>
        by_cases hlr : l < i ∧ r < i
        · have h1 := ih l x (by omega)
          have h2 := ih r x (by omega)
          simp [hlr, h1, h2]
        · simp [hlr]
      | Product l r =>
        by_cases hlr : l < i ∧ r < i
        · have h1 := ih l x (by omega)
          have h2 := ih r x (by omega)
          simp [hlr, h1, h2]
        · simp [hlr]

/-- Growing the heap at the end never changes what an existing pointer
prints. -/
theorem printAtF_append (s t : Store) :
    ∀ fuel i os, i < s.length →
      printAtF (s ++ t) fuel i os = printAtF s fuel i os := by
  intro fuel
  induction fuel with
  | zero => intro i os hi; rfl
  | succ fuel ih =>
    intro i os hi
    simp only [printAtF, List.getElem?_append_left hi]
    cases hs : s[i]? with
    | none => rfl
    | some n =>
      cases n with
      | Constant c => rfl
      | Variable => rfl
      | Sum l r =>
        by_cases hlr : l < i ∧ r < i
        · have h1 : ∀ u, printAtF (s ++ t) fuel l u = printAtF s fuel l u :=
            fun u => ih l u (by omega)
          have h2 : ∀ u, printAtF (s ++ t) fuel r u = printAtF s fuel r u :=
            fun u => ih r u (by omega)
          simp [hlr, h1, h2]
        · simp [hlr]
      | Product l r =>
        by_cases hlr : l < i ∧ r < i
        · have h1 : ∀ u, printAtF (s ++ t) fuel l u = printAtF s fuel l u :=
            fun u => ih l u (by omega)
          have h2 : ∀ u, printAtF (s ++ t) fuel r u = printAtF s fuel r u :=
            fun u => ih r u (by omega)
          simp [hlr, h1, h2]
        · simp [hlr]

/-- Growing the heap at the end never changes the tree an existing pointer
reads back. -/
theorem readExprF_append (s t : Store) :
    ∀ fuel i, i < s.length →
      readExprF (s ++ t) fuel i = readExprF s fuel i := by
  intro fuel
  induction fuel with
  | zero => intro i hi; rfl
  | succ fuel ih =>
    intro i hi
    simp only [readExprF, List.getElem?_append_left hi]
    cases hs : s[i]? with
    | none => rfl
    | some n =>
      cases n with
      | Constant c => rfl
      | Variable => rfl
      | Sum l r =>
        by_cases hlr : l < i ∧ r < i
        · have h1 := ih l (by omega)
          have h2 := ih r (by omega)
          simp [hlr, h1, h2]
        · simp [hlr]
      | Product l r =>
        by_cases hlr : l < i ∧ r < i
        · have h1 := ih l (by omega)
          have h2 := ih r (by omega)
          simp [hlr, h1, h2]
        · simp [hlr]

/-- Differentiation only ever appends to the heap (it never writes an
existing cell and never removes one), and it returns a pointer to an
allocated cell. -/
theorem derivAtF_sound :
    ∀ fuel s i d s', derivAtF fuel s i = some (d, s') →
      (∃ t, s' = s ++ t) ∧ d < s'.length := by
  intro fuel
  induction fuel with
  | zero => intro s i d s' h; exact absurd h (by simp [derivAtF])
  | succ fuel ih =>
    intro s i d s' h
    simp only [derivAtF] at h
    cases hs : s[i]? with
    | none => rw [hs] at h; simp at h
    | some n =>
      rw [hs] at h
      cases n with
      | Constant c =>
        simp only [alloc, Option.some.injEq, Prod.mk.injEq] at h
        obtain ⟨hd, hs'⟩ := h
        subst hd; subst hs'
        exact ⟨⟨[Node.Constant 0], rfl⟩, by simp⟩
      | Variable =>
        simp only [alloc, Option.some.injEq, Prod.mk.injEq] at h
        obtain ⟨hd, hs'⟩ := h
        subst hd; subst hs'
        exact ⟨⟨[Node.Constant 1], rfl⟩, by simp⟩
      | Sum l r =>
        by_cases hlr : l < i ∧ r < i
        · simp only [if_pos hlr] at h
          cases h1 : derivAtF fuel s l with
          | none => rw [h1] at h; simp at h
          | some p =>
            obtain ⟨dl, s1⟩ := p
            rw [h1] at h
            simp only [Option.bind_eq_bind, Option.some_bind] at h
            cases h2 : derivAtF fuel s1 r with
            | none => rw [h2] at h; simp at h
            | some q =>
              obtain ⟨dr, s2⟩ := q
              rw [h2] at h
              simp only [Option.bind_eq_bind, Option.some_bind,
                Option.pure_def, alloc, Option.some.injEq, Prod.mk.injEq] at h
              obtain ⟨hd, hs'⟩ := h
              obtain ⟨⟨t1, ht1⟩, _⟩ := ih s l dl s1 h1
              obtain ⟨⟨t2, ht2⟩, _⟩ := ih s1 r dr s2 h2
              constructor
              · refine ⟨t1 ++ (t2 ++ [Node.Sum dl dr]), ?_⟩
                rw [← hs', ht2, ht1]; simp
              · rw [← hs', ← hd]; simp
        · simp [hlr] at h
      | Product l r =>
        by_cases hlr : l < i ∧ r < i
        · simp only [if_pos hlr] at h
          cases h1 : derivAtF fuel s r with
          | none => rw [h1] at h; simp at h
          | some p =>
            obtain ⟨dr, s1⟩ := p
            rw [h1] at h
            simp only [Option.bind_eq_bind, Option.some_bind, alloc] at h
            cases h2 : derivAtF fuel (s1 ++ [Node.Product l dr]) l with
            | none => rw [h2] at h; simp at h
            | some q =>
              obtain ⟨dl, s3⟩ := q
              rw [h2] at h
              simp only [Option.bind_eq_bind, Option.some_bind,
                Option.pure_def, alloc, Option.some.injEq, Prod.mk.injEq] at h
              obtain ⟨hd, hs'⟩ := h
              obtain ⟨⟨t1, ht1⟩, _⟩ := ih s r dr s1 h1
              obtain ⟨⟨t3, ht3⟩, _⟩ := ih (s1 ++ [Node.Product l dr]) l dl s3 h2
              constructor
              · refine ⟨t1 ++ ([Node.Product l dr] ++ (t3
                  ++ ([Node.Product dl r] ++ [Node.Sum s1.length s3.length]))), ?_⟩
                rw [← hs', ht3, ht1]; simp
              · rw [← hs', ← hd]; simp
        · simp [hlr] at h

/-- Growing the heap never changes what an existing pointer evaluates to. -/
theorem evalAt_append (s t : Store) (i : Nat) (hi : i < s.length) (x : ℚ) :
    evalAt (s ++ t) i x = evalAt s i x :=
  evalAtF_append s t (i+1) i x hi

/-- Growing the heap never changes what an existing pointer prints. -/
theorem printAt_append (s t : Store) (i : Nat) (hi : i < s.length) (os : String) :
    printAt (s ++ t) i os = printAt s i os :=
  printAtF_append s t (i+1) i os hi

/-- Growing the heap never changes the tree an existing pointer reads back. -/
theorem readExpr_append (s t : Store) (i : Nat) (hi : i < s.length) :
    readExpr (s ++ t) i = readExpr s i :=
  readExprF_append s t (i+1) i hi

/-- A successful read with any amount of fuel is also a successful read with
any fuel beyond the index. -/
theorem readExprF_succ_any (s : Store) :
    ∀ fuel fuel2 i e, readExprF s fuel i = some e → i < fuel2 →
      readExprF s fuel2 i = some e := by
  intro fuel
  induction fuel with
  | zero => intro fuel2 i e h; simp [readExprF] at h
  | succ fuel ih =>
    intro fuel2 i e h hif
    simp only [readExprF] at h
    match fuel2, hif with
    | fuel2+1, hif =>
      simp only [readExprF]
      cases hs : s[i]? with
      | none => rw [hs] at h; simp at h
      | some n =>
        rw [hs] at h
        cases n with
        | Constant c => exact h
        | Variable => exact h
        | Sum l r =>
          by_cases hlr : l < i ∧ r < i
          · simp only [if_pos hlr] at h ⊢
            simp only [Option.bind_eq_bind, Option.bind_eq_some,
              Option.pure_def, Option.some.injEq] at h
            obtain ⟨el, hel, er, her, he⟩ := h
            have h1 := ih fuel2 l el hel (by omega)
            have h2 := ih fuel2 r er her (by omega)
            simp [h1, h2, he]
          · simp [hlr] at h
        | Product l r =>
          by_cases hlr : l < i ∧ r < i
          · simp only [if_pos hlr] at h ⊢
            simp only [Option.bind_eq_bind, Option.bind_eq_some,
              Option.pure_def, Option.some.injEq] at h
            obtain ⟨el, hel, er, her, he⟩ := h
            have h1 := ih fuel2 l el hel (by omega)
            have h2 := ih fuel2 r er her (by omega)
            simp [h1, h2, he]
          · simp [hlr] at h

/-- Reading through a pointer to a Constant cell. -/
theorem readExpr_constant {s : Store} {i : Nat} {c : ℚ}
    (hs : s[i]? = some (Node.Constant c)) :
    readExpr s i = some (Expr.Constant c) := by
  simp [readExpr, readExprF, hs]

/-- Reading through a pointer to a Variable cell. -/
theorem readExpr_variable {s : Store} {i : Nat}
    (hs : s[i]? = some Node.Variable) :
    readExpr s i = some Expr.Variable := by
  simp [readExpr, readExprF, hs]

/-- Reading through a pointer to a Sum cell whose children point backwards
unfolds to reading the children. -/
theorem readExpr_sum_node {s : Store} {i l r : Nat}
    (hs : s[i]? = some (Node.Sum l r)) (hl : l < i) (hr : r < i) :
    readExpr s i = (readExpr s l).bind fun el =>
      (readExpr s r).bind fun er => some (Expr.Sum el er) := by
  have hml := readExprF_mono s i (l+1) l hl (by omega)
  have hmr := readExprF_mono s i (r+1) r hr (by omega)
  simp only [readExpr, readExprF, hs, and_self, hl, hr, if_pos,
    Option.bind_eq_bind, Option.pure_def, hml, hmr]

/-- Reading through a pointer to a Product cell whose children point
backwards unfolds to reading the children. -/
theorem readExpr_product_node {s : Store} {i l r : Nat}
    (hs : s[i]? = some (Node.Product l r)) (hl : l < i) (hr : r < i) :
    readExpr s i = (readExpr s l).bind fun el =>
      (readExpr s r).bind fun er => some (Expr.Product el er) := by
  have hml := readExprF_mono s i (l+1) l hl (by omega)
  have hmr := readExprF_mono s i (r+1) r hr (by omega)
  simp only [readExpr, readExprF, hs, and_self, hl, hr, if_pos,
    Option.bind_eq_bind, Option.pure_def, hml, hmr]

/-- If a pointer reads back the tree e, evaluation through the pointer
computes exactly the structural evaluation of e. -/
theorem evalAtF_of_read (s : Store) :
    ∀ fuel i e, readExprF s fuel i = some e →
      ∀ x, evalAtF s fuel i x = some (Shared.evaluate e x) := by
  intro fuel
  induction fuel with
  | zero => intro i e h; simp [readExprF] at h
  | succ fuel ih =>
    intro i e h x
    simp only [readExprF] at h
    simp only [evalAtF]
    cases hs : s[i]? with
    | none => rw [hs] at h; simp at h
    | some n =>
      rw [hs] at h
      cases n with
      | Constant c =>
        simp only [Option.some.injEq] at h
        subst h
        simp [Shared.evaluate]
      | Variable =>
        simp only [Option.some.injEq] at h
        subst h
        simp [Shared.evaluate]
      | Sum l r =>
        by_cases hlr : l < i ∧ r < i
        · simp only [if_pos hlr] at h ⊢
          simp only [Option.bind_eq_bind, Option.bind_eq_some,
            Option.pure_def, Option.some.injEq] at h
          obtain ⟨el, hel, er, her, he⟩ := h
          subst he
          have h1 := ih l el hel x
          have h2 := ih r er her x
          simp [h1, h2, Shared.evaluate]
        · simp [hlr] at h
      | Product l r =>
        by_cases hlr : l < i ∧ r < i
        · simp only [if_pos hlr] at h ⊢
          simp only [Option.bind_eq_bind, Option.bind_eq_some,
            Option.pure_def, Option.some.injEq] at h
          obtain ⟨el, hel, er, her, he⟩ := h
          subst he
          have h1 := ih l el hel x
          have h2 := ih r er her x
          simp [h1, h2, Shared.evaluate]
        · simp [hlr] at h

/-- If a pointer reads back the tree e, printing through the pointer writes
exactly what the structural printer writes. -/
theorem printAtF_of_read (s : Store) :
    ∀ fuel i e, readExprF s fuel i = some e →
      ∀ os, printAtF s fuel i os = some (Shared.printTo e os) := by
  intro fuel
  induction fuel with
  | zero => intro i e h; simp [readExprF] at h
  | succ fuel ih =>
    intro i e h os
    simp only [readExprF] at h
    simp only [printAtF]
    cases hs : s[i]? with
    | none => rw [hs] at h; simp at h
    | some n =>
      rw [hs] at h
      cases n with
      | Constant c =>
        simp only [Option.some.injEq] at h
        subst h
        simp [Shared.printTo]
      | Variable =>
        simp only [Option.some.injEq] at h
        subst h
        simp [Shared.printTo]
      | Sum l r =>
        by_cases hlr : l < i ∧ r < i
        · simp only [if_pos hlr] at h ⊢
          simp only [Option.bind_eq_bind, Option.bind_eq_some,
            Option.pure_def, Option.some.injEq] at h
          obtain ⟨el, hel, er, her, he⟩ := h
          subst he
          have h1 : ∀ u, printAtF s fuel l u = some (Shared.printTo el u) :=
            ih l el hel
          have h2 : ∀ u, printAtF s fuel r u = some (Shared.printTo er u) :=
            ih r er her
          simp [h1, h2, Shared.printTo]
        · simp [hlr] at h
      | Product l r =>
        by_cases hlr : l < i ∧ r < i
        · simp only [if_pos hlr] at h ⊢
          simp only [Option.bind_eq_bind, Option.bind_eq_some,
            Option.pure_def, Option.some.injEq] at h
          obtain ⟨el, hel, er, her, he⟩ := h
          subst he
          have h1 : ∀ u, printAtF s fuel l u = some (Shared.printTo el u) :=
            ih l el hel
          have h2 : ∀ u, printAtF s fuel r u = some (Shared.printTo er u) :=
            ih r er her
          simp [h1, h2, Shared.printTo]
        · simp [hlr] at h

/-- If a pointer reads back the tree e, evaluation through the pointer
computes exactly the structural evaluation of e. -/
theorem evalAt_of_read {s : Store} {i : Nat} {e : Expr}
    (h : readExpr s i = some e) (x : ℚ) :
    evalAt s i x = some (Shared.evaluate e x) :=
  evalAtF_of_read s (i+1) i e h x

/-- If a pointer reads back the tree e, printing through the pointer writes
exactly what the structural printer writes. -/
theorem printAt_of_read {s : Store} {i : Nat} {e : Expr}
    (h : readExpr s i = some e) (os : String) :
    printAt s i os = some (Shared.printTo e os) :=
  printAtF_of_read s (i+1) i e h os

/-- If a pointer reads back the tree e, differentiation through the pointer
succeeds, only appends new cells to the heap, returns a pointer to an
allocated cell, and that pointer reads back exactly the structural
derivative of e. -/
theorem derivAtF_of_read :
    ∀ fuel s i e, readExprF s fuel i = some e →
      ∃ d s', derivAtF fuel s i = some (d, s')
        ∧ (∃ t, s' = s ++ t) ∧ d < s'.length
        ∧ readExpr s' d = some (Shared.derivative e) := by
  intro fuel
  induction fuel with
  | zero => intro s i e h; simp [readExprF] at h
  | succ fuel ih =>
    intro s i e h
    simp only [readExprF] at h
    simp only [derivAtF]
    cases hs : s[i]? with
    | none => rw [hs] at h; simp at h
    | some n =>
      rw [hs] at h
      cases n with
      | Constant c =>
        simp only [Option.some.injEq] at h
        subst h
        refine ⟨s.length, s ++ [Node.Constant 0], rfl,
          ⟨[Node.Constant 0], rfl⟩, by simp, ?_⟩
        rw [readExpr_constant (List.getElem?_concat_length s (Node.Constant 0))]
        simp [Shared.derivative]
      | Variable =>
        simp only [Option.some.injEq] at h
        subst h
        refine ⟨s.length, s ++ [Node.Constant 1], rfl,
          ⟨[Node.Constant 1], rfl⟩, by simp, ?_⟩
        rw [readExpr_constant (List.getElem?_concat_length s (Node.Constant 1))]
        simp [Shared.derivative]
      | Sum l r =>
        by_cases hlr : l < i ∧ r < i
        · simp only [if_pos hlr] at h ⊢
          simp only [Option.bind_eq_bind, Option.bind_eq_some,
            Option.pure_def, Option.some.injEq] at h
          obtain ⟨el, hel, er, her, he⟩ := h
          subst he
          have hi : i < s.length := (List.getElem?_eq_some.mp hs).1
          obtain ⟨dl, s1, hdl, ⟨t1, hext1⟩, hdlb, hread1⟩ := ih s l el hel
          have hrlen : r < s.length := by omega
          have her1 : readExprF s1 fuel r = some er := by
            rw [hext1, readExprF_append s t1 fuel r hrlen]; exact her
          obtain ⟨dr, s2, hdr, ⟨t2, hext2⟩, hdrb, hread2⟩ := ih s1 r er her1
          have hs1len : s1.length ≤ s2.length := by rw [hext2]; simp
          refine ⟨s2.length, s2 ++ [Node.Sum dl dr], ?_, ?_, by simp, ?_⟩
          · rw [hdl]
            simp only [Option.bind_eq_bind, Option.some_bind]
            rw [hdr]
            simp [alloc, Option.pure_def]
          · exact ⟨t1 ++ (t2 ++ [Node.Sum dl dr]), by rw [hext2, hext1]; simp⟩
          · have hnode : (s2 ++ [Node.Sum dl dr])[s2.length]?
                = some (Node.Sum dl dr) :=
              List.getElem?_concat_length s2 (Node.Sum dl dr)
            rw [readExpr_sum_node hnode (by omega) (by omega)]
            have e1 : readExpr (s2 ++ [Node.Sum dl dr]) dl
                = some (Shared.derivative el) := by
              rw [readExpr_append s2 [Node.Sum dl dr] dl (by omega), hext2,
                readExpr_append s1 t2 dl hdlb]
              exact hread1
            have e2 : readExpr (s2 ++ [Node.Sum dl dr]) dr
                = some (Shared.derivative er) := by
              rw [readExpr_append s2 [Node.Sum dl dr] dr hdrb]
              exact hread2
            rw [e1]
            simp only [Option.some_bind]
            rw [e2]
            simp [Shared.derivative]
        · simp [hlr] at h
      | Product l r =>
        by_cases hlr : l < i ∧ r < i
        · simp only [if_pos hlr] at h ⊢
          simp only [Option.bind_eq_bind, Option.bind_eq_some,
            Option.pure_def, Option.some.injEq] at h
          obtain ⟨el, hel, er, her, he⟩ := h
          subst he
          have hi : i < s.length := (List.getElem?_eq_some.mp hs).1
          have hllen : l < s.length := by omega
          have hrlen : r < s.length := by omega
          obtain ⟨dr, s1, hdr, ⟨t1, hext1⟩, hdrb, hread1⟩ := ih s r er her
          have hsl1 : s.length ≤ s1.length := by rw [hext1]; simp
          have hel1 : readExprF (s1 ++ [Node.Product l dr]) fuel l = some el := by
            rw [hext1, List.append_assoc, readExprF_append s _ fuel l hllen]
            exact hel
          obtain ⟨dl, s3, hdl, ⟨t3, hext3⟩, hdlb, hread3⟩ :=
            ih (s1 ++ [Node.Product l dr]) l el hel1
          have hd2 : (s1 ++ [Node.Product l dr]).length = s1.length + 1 := by simp
          have hs3len : s1.length + 1 ≤ s3.length := by
            rw [hext3, List.length_append, hd2]
            omega
          have hd4 : (s3 ++ [Node.Product dl r]).length = s3.length + 1 := by simp
          have hreadl : readExpr s l = some el :=
            readExprF_succ_any s fuel (l+1) l el hel (by omega)
          have hreadr : readExpr s r = some er :=
            readExprF_succ_any s fuel (r+1) r er her (by omega)
          have hs1l : readExpr s1 l = some el := by
            rw [hext1, readExpr_append s t1 l hllen]; exact hreadl
          have hs1r : readExpr s1 r = some er := by
            rw [hext1, readExpr_append s t1 r hrlen]; exact hreadr
          have hs3r : readExpr s3 r = some er := by
            rw [hext3,
              readExpr_append (s1 ++ [Node.Product l dr]) t3 r (by omega),
              readExpr_append s1 [Node.Product l dr] r (by omega)]
            exact hs1r
          refine ⟨(s3 ++ [Node.Product dl r]).length,
            (s3 ++ [Node.Product dl r]) ++ [Node.Sum s1.length s3.length],
            ?_, ?_, by simp, ?_⟩
          · rw [hdr]
            simp only [Option.bind_eq_bind, Option.some_bind, alloc]
            rw [hdl]
            simp [alloc, Option.pure_def]
          · exact ⟨t1 ++ ([Node.Product l dr] ++ (t3 ++ ([Node.Product dl r]
              ++ [Node.Sum s1.length s3.length]))),
              by rw [hext3, hext1]; simp⟩
          · have hnode : ((s3 ++ [Node.Product dl r])
                ++ [Node.Sum s1.length s3.length])[(s3
                ++ [Node.Product dl r]).length]?
                = some (Node.Sum s1.length s3.length) :=
              List.getElem?_concat_length _ _
            rw [readExpr_sum_node hnode (by omega) (by omega)]
            have hnode2 : (s1 ++ [Node.Product l dr])[s1.length]?
                = some (Node.Product l dr) :=
              List.getElem?_concat_length _ _
            have hnode3 : (s3 ++ [Node.Product dl r])[s3.length]?
                = some (Node.Product dl r) :=
              List.getElem?_concat_length _ _
            have e1 : readExpr ((s3 ++ [Node.Product dl r])
                ++ [Node.Sum s1.length s3.length]) s1.length
                = some (Expr.Product el (Shared.derivative er)) := by
              rw [readExpr_append (s3 ++ [Node.Product dl r])
                  [Node.Sum s1.length s3.length] s1.length (by omega),
                readExpr_append s3 [Node.Product dl r] s1.length (by omega),
                hext3,
                readExpr_append (s1 ++ [Node.Product l dr]) t3 s1.length
                  (by omega),
                readExpr_product_node hnode2 (by omega) hdrb,
                readExpr_append s1 [Node.Product l dr] l (by omega), hs1l]
              simp only [Option.some_bind]
              rw [readExpr_append s1 [Node.Product l dr] dr hdrb, hread1]
              simp only [Option.some_bind]
            have e2 : readExpr ((s3 ++ [Node.Product dl r])
                ++ [Node.Sum s1.length s3.length]) s3.length
                = some (Expr.Product (Shared.derivative el) er) := by
              rw [readExpr_append (s3 ++ [Node.Product dl r])
                  [Node.Sum s1.length s3.length] s3.length (by omega),
                readExpr_product_node hnode3 hdlb (by omega),
                readExpr_append s3 [Node.Product dl r] dl hdlb, hread3]
              simp only [Option.some_bind]
              rw [readExpr_append s3 [Node.Product dl r] r (by omega), hs3r]
              simp only [Option.some_bind]
            rw [e1]
            simp only [Option.some_bind]
            rw [e2]
            simp [Shared.derivative]
        · simp [hlr] at h

/-- If a pointer reads back the tree e, differentiation through the pointer
succeeds, only appends to the heap, and the new pointer reads back the
structural derivative of e. -/
theorem derivAt_of_read {s : Store} {i : Nat} {e : Expr}
    (h : readExpr s i = some e) :
    ∃ d s', derivAt s i = some (d, s')
      ∧ (∃ t, s' = s ++ t) ∧ d < s'.length
      ∧ readExpr s' d = some (Shared.derivative e) :=
  derivAtF_of_read (i+1) s i e h

/-- A pointer that reads back a tree points into the heap. -/
theorem readExpr_lt_length {s : Store} {i : Nat} {e : Expr}
    (h : readExpr s i = some e) : i < s.length := by
  by_cases hi : i < s.length
  · exact hi
  · exfalso
    have hnone : s[i]? = none := List.getElem?_eq_none (by omega)
    simp [readExpr, readExprF, hnone] at h

/-- C1: the claim states Product(l, r).evaluate(x) = l.evaluate(x) *
r.evaluate(x).  In both programs the body of Product::calc is return a+b, so
a Product node adds instead of multiplying: at l = Constant 2, r = Constant 3
both variants evaluate Product(l, r) to 5, while the claimed product of the
children values is 6.  The code contradicts its own documentation:
src/block-2b.md shows Product::evaluate returning left times right, and
Product::op in the very same classes returns the star character. -/
theorem claim_C1_product_evaluate_adds :
    Shared.evaluate (Expr.Product (.Constant 2) (.Constant 3)) 0 = 5
    ∧ Unique.evaluate (Expr.Product (.Constant 2) (.Constant 3)) 0 = 5
    ∧ Shared.evaluate (.Constant 2) 0 * Shared.evaluate (.Constant 3) 0 = 6
    ∧ Shared.Product.calcFn 2 3 = 2 + 3 := by
  refine ⟨?_, ?_, ?_, rfl⟩ <;>
    norm_num [Shared.evaluate, Unique.evaluate, Shared.Product.calcFn,
      Unique.Product.calcFn]

/-- C2 counterexample: the claim states that in both variants every node
supports all three operations, including derivative; but the Expression
interface of the exclusive-ownership file (2b-expr-unique.cpp, lines 4 to 9)
declares only evaluate and print, and no class of that file has a derivative
method. -/
theorem claim_C2_counterexample :
    ¬ ("derivative" ∈ Unique.expressionMethods) := by decide

/-- C2 amended: both variants support evaluate and print, and on every tree
built the same way they produce identical observable results from evaluate
and from print (into any stream); derivative is only supported by the
shared-ownership variant. -/
theorem claim_C2_amended (e : Expr) (x : ℚ) (os : String) :
    Unique.evaluate e x = Shared.evaluate e x
    ∧ Unique.printTo e os = Shared.printTo e os
    ∧ "evaluate" ∈ Unique.expressionMethods
    ∧ "print" ∈ Unique.expressionMethods
    ∧ "derivative" ∈ Shared.expressionMethods
    ∧ "derivative" ∉ Unique.expressionMethods := by
  refine ⟨evaluate_agrees e x, ?_, by decide, by decide, by decide, by decide⟩
  rw [unique_printTo_eq_append, shared_printTo_eq_append]

/-- C3: printing a binary node always yields the fully parenthesized form:
for every pair of subtrees and every stream content, a Sum node writes an
opening parenthesis, the left rendering, a plus, the right rendering, a
closing parenthesis, and a Product node does the same with a star; because
this holds for all subtrees l and r it holds recursively at every depth, in
both variants. -/
theorem claim_C3_fully_parenthesized (l r : Expr) (os : String) :
    Shared.printTo (Expr.Sum l r) os
      = os ++ ("(" ++ Shared.printStr l ++ "+" ++ Shared.printStr r ++ ")")
    ∧ Shared.printTo (Expr.Product l r) os
      = os ++ ("(" ++ Shared.printStr l ++ "*" ++ Shared.printStr r ++ ")")
    ∧ Unique.printTo (Expr.Sum l r) os
      = os ++ ("(" ++ Unique.printStr l ++ "+" ++ Unique.printStr r ++ ")")
    ∧ Unique.printTo (Expr.Product l r) os
      = os ++ ("(" ++ Unique.printStr l ++ "*" ++ Unique.printStr r ++ ")") := by
  refine ⟨?_, ?_, ?_, ?_⟩ <;>
    simp [shared_printTo_eq_append, unique_printTo_eq_append, specRender,
      shared_printStr_eq, unique_printStr_eq, String.append_assoc]

/-- C5: on the tree Product(Constant(4), Sum(Constant(5), Variable())) built
in the main function of both programs, print does produce exactly the text
(4*(5+x)), but evaluate at 10 returns 4+(5+10) = 19, not the claimed 60,
because Product::calc adds instead of multiplying; the program prints an
equation that is false of its own output, and src/block-2b.md documents the
multiplication. -/
theorem claim_C5_example_tree :
    Shared.printStr exampleTree = "(4*(5+x))"
    ∧ Unique.printStr exampleTree = "(4*(5+x))"
    ∧ Shared.evaluate exampleTree 10 = 19
    ∧ Unique.evaluate exampleTree 10 = 19
    ∧ (19 : ℚ) ≠ 60 := by
  refine ⟨rfl, rfl, ?_, ?_, by norm_num⟩ <;>
    norm_num [exampleTree, Shared.evaluate, Unique.evaluate,
      Shared.Sum.calcFn, Shared.Product.calcFn, Unique.Sum.calcFn,
      Unique.Product.calcFn]

/-- C6: derivative of a Product node is structurally
Sum(Product(l, derivative(r)), Product(derivative(l), r)), with the original
left child reused unchanged in the first Product and the original right
child reused unchanged in the second, and no simplification applied. -/
theorem claim_C6_product_rule (l r : Expr) :
    Shared.derivative (Expr.Product l r)
      = Expr.Sum (Expr.Product l (Shared.derivative r))
          (Expr.Product (Shared.derivative l) r) := rfl

/-- C10: inserting an expression into a stream with the free operator<< of
the unique variant writes exactly the text print writes into that stream,
and returns the resulting stream, so insertions chain: inserting e and then
e2 appends the rendering of e and then the rendering of e2. -/
theorem claim_C10_stream_insertion (e e2 : Expr) (os : String) :
    Unique.insertExpr os e = Unique.printTo e os
    ∧ Unique.insertExpr os e = os ++ Unique.printStr e
    ∧ Unique.insertExpr (Unique.insertExpr os e) e2
      = os ++ Unique.printStr e ++ Unique.printStr e2 := by
  refine ⟨rfl, ?_, ?_⟩ <;>
    simp [Unique.insertExpr, unique_printTo_eq_append, unique_printStr_eq,
      String.append_assoc]

/-- C4 counterexample: the claim states that giving a combinator constructor
a missing (null) child fails immediately at construction time; in the code
the TwoOp constructor stores the children unchecked, so constructing a Sum
with a null left child succeeds and yields the malformed tree, and the
failure only occurs later, when evaluate or print dereferences the null
child pointer. -/
theorem claim_C4_counterexample :
    buildSum RawExpr.null RawExpr.Variable
      = RawExpr.Sum RawExpr.null RawExpr.Variable
    ∧ RawExpr.evaluate (buildSum RawExpr.null RawExpr.Variable) 0 = none
    ∧ RawExpr.printTo (buildSum RawExpr.null RawExpr.Variable) "" = none :=
  ⟨rfl, rfl, rfl⟩

/-- C4 amended: the combinator constructors perform no validation: a
combinator given a null child stores it and the malformed tree exists;
the failure is deferred to the operations, which dereference the null child:
evaluate, print and derivative all crash on such a tree, whatever the other
child, the argument and the stream. -/
theorem claim_C4_amended (l r : RawExpr) (x : ℚ) (os : String) :
    buildSum RawExpr.null r = RawExpr.Sum RawExpr.null r
    ∧ buildProduct l RawExpr.null = RawExpr.Product l RawExpr.null
    ∧ RawExpr.evaluate (buildSum RawExpr.null r) x = none
    ∧ RawExpr.printTo (buildSum RawExpr.null r) os = none
    ∧ RawExpr.derivative (buildSum RawExpr.null r) = none
    ∧ RawExpr.evaluate (buildProduct l RawExpr.null) x = none
    ∧ RawExpr.printTo (buildProduct l RawExpr.null) os = none
    ∧ RawExpr.derivative (buildProduct l RawExpr.null) = none := by
  refine ⟨rfl, rfl, rfl, rfl, rfl, ?_, ?_, rfl⟩
  · cases hl : RawExpr.evaluate l x <;>
      simp [buildProduct, RawExpr.evaluate, hl]
  · cases hl : RawExpr.printTo l (os.push '(') <;>
      simp [buildProduct, RawExpr.printTo, hl]

/-- C8: on every finite, well-formed tree (no null children) the three
operations are total: each is a terminating structurally recursive function,
and at the raw pointer level none of them can crash: evaluate returns a
value for every argument, print returns a stream for every stream, and
derivative returns a (well-formed) tree. -/
theorem claim_C8_operations_total (e : Expr) (x : ℚ) (os : String) :
    RawExpr.evaluate e.toRaw x = some (Shared.evaluate e x)
    ∧ RawExpr.printTo e.toRaw os = some (Shared.printTo e os)
    ∧ RawExpr.derivative e.toRaw = some (Shared.derivative e).toRaw :=
  ⟨raw_evaluate_toRaw e x, raw_printTo_toRaw e os, raw_derivative_toRaw e⟩

/-- C7: the operations never mutate the tree they are applied to.  In the
heap model, calling derivative on a Product cell only appends fresh cells
(the old heap is an unchanged prefix of the new one, so no existing node was
written or freed), the whole original tree and both original subtrees still
evaluate and print to exactly the same results afterwards, and the new
derivative tree contains two fresh Product cells that store the original
left and right pointers themselves, so the original subtrees are reachable
both through their original parent and through the derivative tree, with
identical results (the evaluation of pointer l below is the result in both
places). -/
theorem claim_C7_derivative_frame (s : Store) (i l r d : Nat) (s' : Store)
    (x : ℚ) (os : String)
    (hnode : s[i]? = some (Node.Product l r))
    (hd : derivAt s i = some (d, s')) :
    (∃ t, s' = s ++ t)
    ∧ evalAt s' i x = evalAt s i x
    ∧ printAt s' i os = printAt s i os
    ∧ evalAt s' l x = evalAt s l x
    ∧ printAt s' l os = printAt s l os
    ∧ evalAt s' r x = evalAt s r x
    ∧ printAt s' r os = printAt s r os
    ∧ ∃ pl pr dl dr, s'[d]? = some (Node.Sum pl pr)
        ∧ s'[pl]? = some (Node.Product l dr)
        ∧ s'[pr]? = some (Node.Product dl r) := by
  simp only [derivAt, derivAtF] at hd
  rw [hnode] at hd
  by_cases hlr : l < i ∧ r < i
  · simp only [if_pos hlr] at hd
    cases h1 : derivAtF i s r with
    | none => rw [h1] at hd; simp at hd
    | some p =>
      obtain ⟨dr, s1⟩ := p
      rw [h1] at hd
      simp only [Option.bind_eq_bind, Option.some_bind, alloc] at hd
      cases h2 : derivAtF i (s1 ++ [Node.Product l dr]) l with
      | none => rw [h2] at hd; simp at hd
      | some q =>
        obtain ⟨dl, s3⟩ := q
        rw [h2] at hd
        simp only [Option.bind_eq_bind, Option.some_bind, Option.pure_def,
          alloc, Option.some.injEq, Prod.mk.injEq] at hd
        obtain ⟨hdd, hss⟩ := hd
        obtain ⟨⟨t1, hext1⟩, hdrb⟩ := derivAtF_sound i s r dr s1 h1
        obtain ⟨⟨t3, hext3⟩, hdlb⟩ :=
          derivAtF_sound i (s1 ++ [Node.Product l dr]) l dl s3 h2
        have hi : i < s.length := (List.getElem?_eq_some.mp hnode).1
        have hsl1 : s.length ≤ s1.length := by rw [hext1]; simp
        have hb3 : s1.length + 1 ≤ s3.length := by
          rw [hext3, List.length_append, List.length_append]
          simp only [List.length_cons, List.length_nil]
          omega
        have hb4 : (s3 ++ [Node.Product dl r]).length = s3.length + 1 := by
          simp
        subst hdd
        subst hss
        have hS : (s3 ++ [Node.Product dl r]) ++ [Node.Sum s1.length s3.length]
            = s ++ (t1 ++ ([Node.Product l dr] ++ (t3 ++ ([Node.Product dl r]
              ++ [Node.Sum s1.length s3.length])))) := by
          rw [hext3, hext1]; simp
        refine ⟨⟨_, hS⟩, ?_, ?_, ?_, ?_, ?_, ?_,
          s1.length, s3.length, dl, dr, ?_, ?_, ?_⟩
        · rw [hS, evalAt_append s _ i hi]
        · rw [hS, printAt_append s _ i hi]
        · rw [hS, evalAt_append s _ l (by omega)]
        · rw [hS, printAt_append s _ l (by omega)]
        · rw [hS, evalAt_append s _ r (by omega)]
        · rw [hS, printAt_append s _ r (by omega)]
        · exact List.getElem?_concat_length _ _
        · rw [List.getElem?_append_left
              (show s1.length < (s3 ++ [Node.Product dl r]).length by omega),
            List.getElem?_append_left (show s1.length < s3.length by omega),
            hext3,
            List.getElem?_append_left
              (show s1.length < (s1 ++ [Node.Product l dr]).length by simp)]
          exact List.getElem?_concat_length _ _
        · rw [List.getElem?_append_left
              (show s3.length < (s3 ++ [Node.Product dl r]).length by simp)]
          exact List.getElem?_concat_length _ _
  · simp [hlr] at hd

/-- Witness for C7 on the tree of the main function: the root cell 4 is the
Product, its derivative is cell 11 of the grown heap, and the frame and
sharing facts hold there concretely. -/
theorem claim_C7_witness :
    mainStore[4]? = some (Node.Product 0 3)
    ∧ derivAt mainStore 4 = some (11, mainDerivStore)
    ∧ ((∃ t, mainDerivStore = mainStore ++ t)
      ∧ evalAt mainDerivStore 4 10 = evalAt mainStore 4 10
      ∧ printAt mainDerivStore 4 "" = printAt mainStore 4 ""
      ∧ evalAt mainDerivStore 0 10 = evalAt mainStore 0 10
      ∧ printAt mainDerivStore 0 "" = printAt mainStore 0 ""
      ∧ evalAt mainDerivStore 3 10 = evalAt mainStore 3 10
      ∧ printAt mainDerivStore 3 "" = printAt mainStore 3 ""
      ∧ ∃ pl pr dl dr, mainDerivStore[11]? = some (Node.Sum pl pr)
          ∧ mainDerivStore[pl]? = some (Node.Product 0 dr)
          ∧ mainDerivStore[pr]? = some (Node.Product dl 3)) :=
  ⟨rfl, rfl,
    claim_C7_derivative_frame mainStore 4 0 3 11 mainDerivStore 10 "" rfl rfl⟩

/-- C9: derivative is deterministic and side-effect free: differentiating
the same tree twice (the second call running on the heap left by the first)
yields pointers that read back structurally identical trees, namely the
structural derivative, and the two result trees evaluate and print
identically everywhere. -/
theorem claim_C9_derivative_deterministic (s : Store) (i : Nat) (e : Expr)
    (d1 d2 : Nat) (s1 s2 : Store) (x : ℚ) (os : String)
    (hread : readExpr s i = some e)
    (h1 : derivAt s i = some (d1, s1))
    (h2 : derivAt s1 i = some (d2, s2)) :
    readExpr s2 d1 = readExpr s2 d2
    ∧ readExpr s2 d1 = some (Shared.derivative e)
    ∧ evalAt s2 d1 x = evalAt s2 d2 x
    ∧ printAt s2 d1 os = printAt s2 d2 os := by
  have hi : i < s.length := readExpr_lt_length hread
  obtain ⟨d1u, s1u, hd1, ⟨t1, hext1⟩, hb1, hr1⟩ := derivAt_of_read hread
  rw [h1] at hd1
  simp only [Option.some.injEq, Prod.mk.injEq] at hd1
  obtain ⟨hd1a, hd1b⟩ := hd1
  subst hd1a
  subst hd1b
  have hrs1 : readExpr s1 i = some e := by
    rw [hext1, readExpr_append s t1 i hi]; exact hread
  obtain ⟨d2u, s2u, hd2, ⟨t2, hext2⟩, hb2, hr2⟩ := derivAt_of_read hrs1
  rw [h2] at hd2
  simp only [Option.some.injEq, Prod.mk.injEq] at hd2
  obtain ⟨hd2a, hd2b⟩ := hd2
  subst hd2a
  subst hd2b
  have hr1s2 : readExpr s2 d1 = some (Shared.derivative e) := by
    rw [hext2, readExpr_append s1 t2 d1 hb1]; exact hr1
  refine ⟨hr1s2.trans hr2.symm, hr1s2, ?_, ?_⟩
  · rw [evalAt_of_read hr1s2 x, evalAt_of_read hr2 x]
  · rw [printAt_of_read hr1s2 os, printAt_of_read hr2 os]

/-- Witness for C9 on the one-cell heap holding the variable x: the two
derivative calls return cells 1 and 2, both holding Constant(1), with equal
readback, evaluation and printing. -/
theorem claim_C9_witness :
    readExpr [Node.Variable] 0 = some Expr.Variable
    ∧ derivAt [Node.Variable] 0 = some (1, [Node.Variable, Node.Constant 1])
    ∧ derivAt [Node.Variable, Node.Constant 1] 0
        = some (2, [Node.Variable, Node.Constant 1, Node.Constant 1])
    ∧ (readExpr [Node.Variable, Node.Constant 1, Node.Constant 1] 1
        = readExpr [Node.Variable, Node.Constant 1, Node.Constant 1] 2
      ∧ readExpr [Node.Variable, Node.Constant 1, Node.Constant 1] 1
        = some (Shared.derivative Expr.Variable)
      ∧ evalAt [Node.Variable, Node.Constant 1, Node.Constant 1] 1 10
        = evalAt [Node.Variable, Node.Constant 1, Node.Constant 1] 2 10
      ∧ printAt [Node.Variable, Node.Constant 1, Node.Constant 1] 1 ""
        = printAt [Node.Variable, Node.Constant 1, Node.Constant 1] 2 "") :=
  ⟨rfl, rfl, rfl,
    claim_C9_derivative_deterministic [Node.Variable] 0 Expr.Variable 1 2
      [Node.Variable, Node.Constant 1]
      [Node.Variable, Node.Constant 1, Node.Constant 1] 10 "" rfl rfl rfl⟩
